import Mathlib

/-!
Formal model of the ozeecubed software oscilloscope core, embedded from
src/oscilloscope/trigger.rs, src/oscilloscope/waveform.rs, src/ui/mod.rs and
src/ui/spectrum.rs.  Rust f32 arithmetic is modelled by exact rational
arithmetic; the `as usize` cast of a float is the integer floor taken to 0
below zero; usize subtraction (saturating_sub and in-bounds minus) is
truncated natural subtraction.  The two transcendental collaborators of the
spectrum pipeline (the rustfft forward transform and the Hann window factor,
both irrational-valued) are parameters of the embedding.
-/

namespace Ozee

/-- Trigger edge polarity (trigger.rs). -/
inductive TriggerEdge
  | Rising
  | Falling

/-- Trigger settings (trigger.rs): enabled flag, edge polarity and level.
The declared-but-unused mode field has no behavioral effect and is not
modelled. -/
structure TriggerSettings where
  enabled : Bool
  edge : TriggerEdge
  level : ℚ

/-- WaveformData (waveform.rs lines 3-9): the sample buffer plus the scale
configuration and the sample rate. -/
structure WaveformData where
  samples : List ℚ
  time_per_division : ℚ
  volts_per_division : ℚ
  sample_rate : ℕ

/-- The edge condition tested on one (prev, curr) pair
(waveform.rs lines 70-73). -/
def triggered (edge : TriggerEdge) (level prev curr : ℚ) : Bool :=
  match edge with
  | .Rising => decide (prev < level) && decide (level ≤ curr)
  | .Falling => decide (level < prev) && decide (curr ≤ level)

/-- find_trigger_point (waveform.rs lines 63-82): scan i = 1 .. len-1 in
order and return the first index whose pair satisfies the edge condition,
else 0. -/
def find_trigger_point (w : WaveformData) (settings : TriggerSettings) : ℕ :=
  match (List.range' 1 (w.samples.length - 1)).find?
      (fun i => triggered settings.edge settings.level
        (w.samples.getD (i - 1) 0) (w.samples.getD i 0)) with
  | some i => i
  | none => 0

/-- calculate_samples_per_screen (waveform.rs lines 56-61): 10 horizontal
divisions; the product is cast to usize, which truncates. -/
def calculate_samples_per_screen (w : WaveformData) : ℕ :=
  let divisions : ℚ := 10
  let total_time := w.time_per_division * divisions
  (⌊total_time * (w.sample_rate : ℚ)⌋).toNat

/-- get_display_samples (waveform.rs lines 25-54): pick the trigger anchor
(or the free-run anchor), clamp the window [start, end) to the buffer, and
emit normalized points. -/
def get_display_samples (w : WaveformData) (trigger_settings : TriggerSettings) :
    List (ℚ × ℚ) :=
  if w.samples.isEmpty then []
  else
    let samples_per_screen := calculate_samples_per_screen w
    let trigger_index :=
      if trigger_settings.enabled then find_trigger_point w trigger_settings
      else w.samples.length - samples_per_screen
    let end_index := min (trigger_index + samples_per_screen) w.samples.length
    let start_index := min trigger_index (end_index - samples_per_screen)
    (((w.samples.drop start_index).take (end_index - start_index)).enum).map
      (fun p => ((p.1 : ℚ) / (samples_per_screen : ℚ), p.2 / w.volts_per_division))

/-- increase_time_scale (waveform.rs lines 84-86). -/
def increase_time_scale (w : WaveformData) : WaveformData :=
  { w with time_per_division := w.time_per_division * 2 }

/-- decrease_time_scale (waveform.rs lines 88-90): halve, clamped at 1e-5. -/
def decrease_time_scale (w : WaveformData) : WaveformData :=
  { w with time_per_division := max (w.time_per_division / 2) (1 / 100000) }

/-- increase_voltage_scale (waveform.rs lines 92-94). -/
def increase_voltage_scale (w : WaveformData) : WaveformData :=
  { w with volts_per_division := w.volts_per_division * 2 }

/-- decrease_voltage_scale (waveform.rs lines 96-98): halve, clamped at
1e-2. -/
def decrease_voltage_scale (w : WaveformData) : WaveformData :=
  { w with volts_per_division := max (w.volts_per_division / 2) (1 / 100) }

/-- Indices of rising zero-crossings (waveform.rs lines 107-112). -/
def risingCrossings (samples : List ℚ) : List ℕ :=
  (List.range' 1 (samples.length - 1)).filter
    (fun i => decide (samples.getD (i - 1) 0 < 0) && decide (0 ≤ samples.getD i 0))

/-- calculate_frequency (waveform.rs lines 101-141): average the distances
between consecutive rising zero-crossings, convert to seconds, invert. -/
def calculate_frequency (w : WaveformData) : Option ℚ :=
  if w.samples.length < 3 then none
  else
    let crossings := risingCrossings w.samples
    if crossings.length < 2 then none
    else
      let gaps : List ℕ := (crossings.zip crossings.tail).map (fun p => p.2 - p.1)
      let total_period : ℚ := (gaps.map (fun g : ℕ => (g : ℚ))).sum
      let count := gaps.length
      if count = 0 then none
      else
        let avg_period_samples := total_period / (count : ℚ)
        let period_seconds := avg_period_samples / (w.sample_rate : ℚ)
        if 0 < period_seconds then some (1 / period_seconds) else none

/-- Indices of zero-crossings in either direction (waveform.rs lines
174-181). -/
def allCrossings (samples : List ℚ) : List ℕ :=
  (List.range' 1 (samples.length - 1)).filter
    (fun i =>
      (decide (samples.getD (i - 1) 0 < 0) && decide (0 ≤ samples.getD i 0))
      || (decide (0 < samples.getD (i - 1) 0) && decide (samples.getD i 0 ≤ 0)))

/-- calculate_duty_cycle (waveform.rs lines 168-193): fraction of samples
strictly above zero, as a percentage. -/
def calculate_duty_cycle (w : WaveformData) : Option ℚ :=
  if w.samples.length < 2 then none
  else
    let crossings := allCrossings w.samples
    if crossings.length < 2 then none
    else
      let above_zero := (w.samples.filter (fun x => decide (0 < x))).length
      some ((above_zero : ℚ) / (w.samples.length : ℚ) * 100)

/-- WaveformCanvas persistence state (ui/mod.rs lines 15-20): the FIFO
history of past display-point sequences, the enabled flag and the depth. -/
structure WaveformCanvas where
  history : List (List (ℚ × ℚ))
  persistence_enabled : Bool
  persistence_frames : ℕ

/-- add_to_history (ui/mod.rs lines 59-68): when enabled and the points are
non-empty, push to the back and pop from the front while over depth. -/
def add_to_history (c : WaveformCanvas) (points : List (ℚ × ℚ)) : WaveformCanvas :=
  if c.persistence_enabled ∧ points ≠ [] then
    let h := c.history ++ [points]
    { c with history := h.drop (h.length - c.persistence_frames) }
  else c

/-- toggle_persistence (ui/mod.rs lines 70-75): flip the flag; clear the
history when disabling. -/
def toggle_persistence (c : WaveformCanvas) : WaveformCanvas :=
  let enabled := !c.persistence_enabled
  { c with persistence_enabled := enabled,
           history := if enabled then c.history else [] }

/-- Fuel-driven doubling loop behind `next_power_of_two`: double `power`
until it reaches `n`. -/
def npotAux (n : ℕ) : ℕ → ℕ → ℕ
  | 0, power => power
  | fuel + 1, power => if n ≤ power then power else npotAux n fuel (power * 2)

/-- Rust `usize::next_power_of_two`: the least power of two that is at
least n (and 1 for n = 0).  Fuel n suffices since 2 ^ n is at least n. -/
def next_power_of_two (n : ℕ) : ℕ := npotAux n n 1

/-- The transform size chosen by compute_spectrum (spectrum.rs line 41). -/
def fftSize (samples : List ℚ) : ℕ := min (next_power_of_two samples.length) 4096

/-- compute_spectrum (spectrum.rs lines 35-73).  The two external
collaborators are parameters of the embedding: `fftF N` models the rustfft
in-place forward transform of size N (length preserving), and `hann N i`
models the window factor 0.5 * (1 - cos(2 * pi * i / N)), irrational in
general.  The complex buffer is a list of (re, im) pairs; the final map is
magnitude normalization and the dB conversion with the 1e-5 clamp. -/
noncomputable def compute_spectrum (fftF : ℕ → List (ℚ × ℚ) → List (ℚ × ℚ))
    (hann : ℕ → ℕ → ℚ) (samples : List ℚ) : List ℝ :=
  if samples.isEmpty then []
  else
    let fft_size := fftSize samples
    let buffer0 := (samples.take fft_size).map (fun x => ((x, 0) : ℚ × ℚ))
    let buffer1 := buffer0 ++ List.replicate (fft_size - buffer0.length) ((0, 0) : ℚ × ℚ)
    let buffer2 := buffer1.enum.map
      (fun p => (p.2.1 * hann fft_size p.1, p.2.2 * hann fft_size p.1))
    let out := fftF fft_size buffer2
    (out.take (fft_size / 2)).map (fun c =>
      20 * Real.logb 10
        (max (Real.sqrt ((c.1 : ℝ) ^ 2 + (c.2 : ℝ) ^ 2) / Real.sqrt (fft_size : ℝ))
          (1 / 100000)))

/-! ## Helper lemmas -/

/-- The scalar step shared by decrease_time_scale and
decrease_voltage_scale: halve and clamp at the floor c. -/
def halfClamp (c x : ℚ) : ℚ := max (x / 2) c

lemma halfClamp_iterate (c : ℚ) (hc : 0 < c) (t : ℚ) :
    ∀ k, (halfClamp c)^[k + 1] t = max (t / 2 ^ (k + 1)) c := by
  intro k
  induction k with
  | zero => simp [halfClamp]
  | succ k ih =>
      rw [Function.iterate_succ_apply', ih]
      have hstep : t / 2 ^ (k + 1) / 2 = t / 2 ^ (k + 1 + 1) := by
        rw [div_div, ← pow_succ]
      rcases le_total (t / 2 ^ (k + 1)) c with h | h
      · have h2 : t / 2 ^ (k + 1 + 1) ≤ c := by
          rw [← hstep]; linarith
        rw [max_eq_right h, halfClamp, max_eq_right (by linarith : c / 2 ≤ c),
          max_eq_right h2]
      · rw [max_eq_left h, halfClamp, hstep]

lemma halfClamp_eventually (c : ℚ) (hc : 0 < c) (t : ℚ) :
    ∃ k, ∀ m, k ≤ m → (halfClamp c)^[m] t = c := by
  obtain ⟨n, hn⟩ := exists_nat_gt (t / c)
  refine ⟨n + 1, fun m hm => ?_⟩
  obtain ⟨k, rfl⟩ : ∃ k, m = k + 1 := ⟨m - 1, by omega⟩
  rw [halfClamp_iterate c hc t k]
  have hpow : (0 : ℚ) < 2 ^ (k + 1) := by positivity
  have h1 : t < (n : ℚ) * c := (div_lt_iff hc).mp hn
  have h2 : (n : ℚ) ≤ 2 ^ (k + 1) := by
    calc (n : ℚ) ≤ 2 ^ n := by exact_mod_cast (Nat.lt_two_pow n).le
    _ ≤ 2 ^ (k + 1) := by
        apply pow_le_pow_right (by norm_num)
        omega
  have hle : t ≤ c * 2 ^ (k + 1) := by nlinarith [hc.le]
  apply max_eq_right
  rw [div_le_iff hpow]
  linarith

lemma decrease_time_scale_iterate (w : WaveformData) (k : ℕ) :
    (decrease_time_scale^[k] w).time_per_division
      = (halfClamp (1 / 100000))^[k] w.time_per_division := by
  induction k with
  | zero => rfl
  | succ k ih =>
      rw [Function.iterate_succ_apply', Function.iterate_succ_apply', ← ih]
      rfl

lemma decrease_voltage_scale_iterate (w : WaveformData) (k : ℕ) :
    (decrease_voltage_scale^[k] w).volts_per_division
      = (halfClamp (1 / 100))^[k] w.volts_per_division := by
  induction k with
  | zero => rfl
  | succ k ih =>
      rw [Function.iterate_succ_apply', Function.iterate_succ_apply', ← ih]
      rfl

/-! ## C1: samples_per_screen truncates rather than rounds -/

/-- C1 (counterexample): at time_per_division = 1/4 and sample_rate = 3 the
product is 7.5; the code truncates to 7 while the claimed rounding gives 8. -/
theorem samples_per_screen_not_round :
    ¬ (calculate_samples_per_screen ⟨[], 1/4, 1/2, 3⟩
        = (round ((1/4 : ℚ) * 10 * ((3 : ℕ) : ℚ))).toNat) := by
  rw [calculate_samples_per_screen, round_eq]
  norm_num
  decide

/-- C1 (amended): calculate_samples_per_screen returns the product
time_per_division * 10 * sample_rate truncated toward zero (the floor, for
a non-negative time_per_division), not the product rounded to nearest. -/
theorem samples_per_screen_truncates (w : WaveformData)
    (ht : 0 ≤ w.time_per_division) :
    (calculate_samples_per_screen w : ℚ)
        ≤ w.time_per_division * 10 * (w.sample_rate : ℚ)
    ∧ w.time_per_division * 10 * (w.sample_rate : ℚ) - 1
        < (calculate_samples_per_screen w : ℚ) := by
  have hprod : (0 : ℚ) ≤ w.time_per_division * 10 * (w.sample_rate : ℚ) := by positivity
  have h0 : (0 : ℤ) ≤ ⌊w.time_per_division * 10 * (w.sample_rate : ℚ)⌋ :=
    Int.floor_nonneg.mpr hprod
  have heq : calculate_samples_per_screen w
      = (⌊w.time_per_division * 10 * (w.sample_rate : ℚ)⌋).toNat := rfl
  have hcast : (calculate_samples_per_screen w : ℚ)
      = (⌊w.time_per_division * 10 * (w.sample_rate : ℚ)⌋ : ℚ) := by
    rw [heq]
    exact_mod_cast Int.toNat_of_nonneg h0
  constructor
  · calc (calculate_samples_per_screen w : ℚ)
        = (⌊w.time_per_division * 10 * (w.sample_rate : ℚ)⌋ : ℚ) := hcast
    _ ≤ w.time_per_division * 10 * (w.sample_rate : ℚ) := Int.floor_le _
  · have h2 : w.time_per_division * 10 * (w.sample_rate : ℚ) - 1
        < (⌊w.time_per_division * 10 * (w.sample_rate : ℚ)⌋ : ℚ) := Int.sub_one_lt_floor _
    calc w.time_per_division * 10 * (w.sample_rate : ℚ) - 1
        < (⌊w.time_per_division * 10 * (w.sample_rate : ℚ)⌋ : ℚ) := h2
    _ = (calculate_samples_per_screen w : ℚ) := hcast.symm

/-- C1 (witness): the amended statement at time_per_division = 1/4,
sample_rate = 3. -/
theorem samples_per_screen_truncates_witness :
    (calculate_samples_per_screen ⟨[], 1/4, 1/2, 3⟩ : ℚ)
        ≤ (1/4 : ℚ) * 10 * ((3 : ℕ) : ℚ)
    ∧ (1/4 : ℚ) * 10 * ((3 : ℕ) : ℚ) - 1
        < (calculate_samples_per_screen ⟨[], 1/4, 1/2, 3⟩ : ℚ) :=
  samples_per_screen_truncates ⟨[], 1/4, 1/2, 3⟩ (by norm_num)

/-! ## C5: scale floors -/

/-- C5: repeatedly decreasing the time scale eventually reaches exactly
1e-5 and stays there; repeatedly decreasing the voltage scale eventually
reaches exactly 1e-2 and stays there; increasing at either floor yields a
value strictly above the floor. -/
theorem scale_floors :
    (∀ w : WaveformData, ∃ k, ∀ m, k ≤ m →
        (decrease_time_scale^[m] w).time_per_division = 1 / 100000)
    ∧ (∀ w : WaveformData, ∃ k, ∀ m, k ≤ m →
        (decrease_voltage_scale^[m] w).volts_per_division = 1 / 100)
    ∧ (∀ w : WaveformData, w.time_per_division = 1 / 100000 →
        1 / 100000 < (increase_time_scale w).time_per_division)
    ∧ (∀ w : WaveformData, w.volts_per_division = 1 / 100 →
        1 / 100 < (increase_voltage_scale w).volts_per_division) := by
  refine ⟨?_, ?_, ?_, ?_⟩
  · intro w
    obtain ⟨k, hk⟩ := halfClamp_eventually (1 / 100000) (by norm_num) w.time_per_division
    exact ⟨k, fun m hm => by rw [decrease_time_scale_iterate, hk m hm]⟩
  · intro w
    obtain ⟨k, hk⟩ := halfClamp_eventually (1 / 100) (by norm_num) w.volts_per_division
    exact ⟨k, fun m hm => by rw [decrease_voltage_scale_iterate, hk m hm]⟩
  · intro w h
    simp only [increase_time_scale, h]
    norm_num
  · intro w h
    simp only [increase_voltage_scale, h]
    norm_num

/-! ## C7: persistence history -/

/-- C7: from an enabled persistence state with depth 3 and empty history,
pushing four non-empty point sequences leaves exactly the last three in
FIFO order, and toggling persistence off clears the whole history. -/
theorem persistence_depth3 (p1 p2 p3 p4 : List (ℚ × ℚ))
    (h1 : p1 ≠ []) (h2 : p2 ≠ []) (h3 : p3 ≠ []) (h4 : p4 ≠ []) :
    (add_to_history (add_to_history (add_to_history
        (add_to_history ⟨[], true, 3⟩ p1) p2) p3) p4).history = [p2, p3, p4]
    ∧ (toggle_persistence (add_to_history (add_to_history (add_to_history
        (add_to_history ⟨[], true, 3⟩ p1) p2) p3) p4)).history = [] := by
  have e1 : add_to_history ⟨[], true, 3⟩ p1 = ⟨[p1], true, 3⟩ := by
    rw [add_to_history, if_pos ⟨rfl, h1⟩]
    rfl
  have e2 : add_to_history ⟨[p1], true, 3⟩ p2 = ⟨[p1, p2], true, 3⟩ := by
    rw [add_to_history, if_pos ⟨rfl, h2⟩]
    rfl
  have e3 : add_to_history ⟨[p1, p2], true, 3⟩ p3 = ⟨[p1, p2, p3], true, 3⟩ := by
    rw [add_to_history, if_pos ⟨rfl, h3⟩]
    rfl
  have e4 : add_to_history ⟨[p1, p2, p3], true, 3⟩ p4 = ⟨[p2, p3, p4], true, 3⟩ := by
    rw [add_to_history, if_pos ⟨rfl, h4⟩]
    rfl
  rw [e1, e2, e3, e4]
  exact ⟨rfl, rfl⟩

/-- C7 (witness): the history claim at four concrete singleton point
sequences. -/
theorem persistence_depth3_witness :
    (add_to_history (add_to_history (add_to_history
        (add_to_history ⟨[], true, 3⟩ [((0 : ℚ), (1 : ℚ))]) [(0, 2)]) [(0, 3)])
        [(0, 4)]).history = [[((0 : ℚ), (2 : ℚ))], [(0, 3)], [(0, 4)]]
    ∧ (toggle_persistence (add_to_history (add_to_history (add_to_history
        (add_to_history ⟨[], true, 3⟩ [((0 : ℚ), (1 : ℚ))]) [(0, 2)]) [(0, 3)])
        [(0, 4)])).history = [] :=
  persistence_depth3 _ _ _ _ (List.cons_ne_nil _ _) (List.cons_ne_nil _ _)
    (List.cons_ne_nil _ _) (List.cons_ne_nil _ _)

/-! ## C3: trigger search -/

lemma find?_first {p : ℕ → Bool} :
    ∀ {l : List ℕ}, l.Pairwise (· < ·) → ∀ {a : ℕ}, l.find? p = some a →
      ∀ b ∈ l, p b = true → a ≤ b := by
  intro l
  induction l with
  | nil => intro _ a h; simp at h
  | cons x t ih =>
      intro hp a hfind b hb hpb
      obtain ⟨hx, ht⟩ := List.pairwise_cons.mp hp
      rcases hpx : p x with _ | _
      · rw [List.find?_cons_of_neg _ (by simp [hpx])] at hfind
        rcases List.mem_cons.mp hb with rfl | hbt
        · rw [hpx] at hpb; exact absurd hpb (by simp)
        · exact ih ht hfind b hbt hpb
      · rw [List.find?_cons_of_pos _ hpx] at hfind
        obtain rfl : x = a := by simpa using hfind
        rcases List.mem_cons.mp hb with rfl | hbt
        · exact le_rfl
        · exact (hx b hbt).le

/-- A trigger condition holding at index i of the sample list: i is an
in-range scan position whose (prev, curr) pair fires the edge test. -/
def trigAt (samples : List ℚ) (s : TriggerSettings) (i : ℕ) : Prop :=
  1 ≤ i ∧ i < samples.length ∧
    triggered s.edge s.level (samples.getD (i - 1) 0) (samples.getD i 0) = true

lemma trigAt_iff (samples : List ℚ) (s : TriggerSettings) (i : ℕ) :
    trigAt samples s i ↔
      (i ∈ List.range' 1 (samples.length - 1) ∧
        triggered s.edge s.level (samples.getD (i - 1) 0) (samples.getD i 0) = true) := by
  rw [trigAt, List.mem_range'_1]
  constructor
  · rintro ⟨h1, h2, h3⟩
    exact ⟨⟨h1, by omega⟩, h3⟩
  · rintro ⟨⟨h1, h2⟩, h3⟩
    exact ⟨h1, by omega, h3⟩

/-- C3: find_trigger_point returns an index satisfying the edge condition
that is minimal among all such indices whenever one exists, returns 0 when
none exists, and on the ramp [-1,-0.5,0,0.5,1,0.5,0,-0.5] with a rising
edge at level 0.25 returns exactly 3. -/
theorem find_trigger_point_spec (w : WaveformData) (s : TriggerSettings) :
    (∀ i, trigAt w.samples s i →
        trigAt w.samples s (find_trigger_point w s) ∧ find_trigger_point w s ≤ i)
    ∧ ((∀ i, ¬ trigAt w.samples s i) → find_trigger_point w s = 0)
    ∧ find_trigger_point ⟨[-1, -1/2, 0, 1/2, 1, 1/2, 0, -1/2], 1, 1, 1⟩
        ⟨true, .Rising, 1/4⟩ = 3 := by
  refine ⟨?_, ?_, ?_⟩
  · intro i hi
    rcases hfind : (List.range' 1 (w.samples.length - 1)).find?
        (fun j => triggered s.edge s.level
          (w.samples.getD (j - 1) 0) (w.samples.getD j 0)) with _ | j
    · exfalso
      obtain ⟨hmem, hcond⟩ := (trigAt_iff w.samples s i).mp hi
      exact absurd hcond (by simpa using List.find?_eq_none.mp hfind i hmem)
    · have hres : find_trigger_point w s = j := by
        rw [find_trigger_point, hfind]
      constructor
      · rw [hres, trigAt_iff]
        exact ⟨List.mem_of_find?_eq_some hfind, by simpa using List.find?_some hfind⟩
      · rw [hres]
        obtain ⟨hmem, hcond⟩ := (trigAt_iff w.samples s i).mp hi
        exact find?_first (List.pairwise_lt_range' 1 _) hfind i hmem hcond
  · intro hnone
    rcases hfind : (List.range' 1 (w.samples.length - 1)).find?
        (fun j => triggered s.edge s.level
          (w.samples.getD (j - 1) 0) (w.samples.getD j 0)) with _ | j
    · rw [find_trigger_point, hfind]
    · exfalso
      apply hnone j
      rw [trigAt_iff]
      exact ⟨List.mem_of_find?_eq_some hfind, by simpa using List.find?_some hfind⟩
  · rw [find_trigger_point]
    norm_num [List.find?, triggered, List.getD]

/-- C3 (witness): the minimality conjunct instantiated on the concrete
ramp at the firing index 3. -/
theorem find_trigger_point_spec_witness :
    trigAt [-1, -1/2, 0, 1/2, 1, 1/2, 0, -1/2] ⟨true, .Rising, 1/4⟩
        (find_trigger_point ⟨[-1, -1/2, 0, 1/2, 1, 1/2, 0, -1/2], 1, 1, 1⟩
          ⟨true, .Rising, 1/4⟩)
    ∧ find_trigger_point ⟨[-1, -1/2, 0, 1/2, 1, 1/2, 0, -1/2], 1, 1, 1⟩
        ⟨true, .Rising, 1/4⟩ ≤ 3 :=
  (find_trigger_point_spec ⟨[-1, -1/2, 0, 1/2, 1, 1/2, 0, -1/2], 1, 1, 1⟩
      ⟨true, .Rising, 1/4⟩).1 3
    (by
      refine ⟨by norm_num, by norm_num, ?_⟩
      norm_num [triggered, List.getD])

/-! ## C4 and C10: display window bounds -/

/-- C4: every display point has an x coordinate in [0, 1], and at most
samples_per_screen points are returned. -/
theorem display_samples_spec (w : WaveformData) (ts : TriggerSettings) :
    (∀ q ∈ get_display_samples w ts, 0 ≤ q.1 ∧ q.1 ≤ 1)
    ∧ (get_display_samples w ts).length ≤ calculate_samples_per_screen w := by
  rcases hemp : w.samples.isEmpty with _ | _
  · rw [get_display_samples, if_neg (by simp [hemp])]
    set sps := calculate_samples_per_screen w with hsps
    set trig := if ts.enabled then find_trigger_point w ts
      else w.samples.length - sps with htrig
    set e := min (trig + sps) w.samples.length with he
    set st := min trig (e - sps) with hst
    have hwin : ((w.samples.drop st).take (e - st)).length ≤ sps := by
      rw [List.length_take, List.length_drop]
      omega
    constructor
    · intro q hq
      rw [List.mem_map] at hq
      obtain ⟨pr, hpr, rfl⟩ := hq
      have hlt : pr.1 < ((w.samples.drop st).take (e - st)).length := by
        rw [List.mem_enum_iff_getElem?] at hpr
        exact List.getElem?_eq_some.mp hpr |>.1
      have hsp : 0 < sps := lt_of_le_of_lt (Nat.zero_le _) (lt_of_lt_of_le hlt hwin)
      have hxle : pr.1 < sps := lt_of_lt_of_le hlt hwin
      constructor
      · exact div_nonneg (by positivity) (by positivity)
      · rw [div_le_one (by exact_mod_cast hsp)]
        exact_mod_cast hxle.le
    · rw [List.length_map, List.enum_length]
      exact hwin
  · rw [get_display_samples, if_pos (by simp [hemp])]
    simp

/-- C10: for a non-empty buffer the display always holds exactly
min(samples_per_screen, buffer length) points, for any trigger settings. -/
theorem display_samples_length (w : WaveformData) (ts : TriggerSettings)
    (h : w.samples ≠ []) :
    (get_display_samples w ts).length
      = min (calculate_samples_per_screen w) w.samples.length := by
  rw [get_display_samples, if_neg (by simp [h])]
  set sps := calculate_samples_per_screen w with hsps
  set trig := if ts.enabled then find_trigger_point w ts
    else w.samples.length - sps with htrig
  rw [List.length_map, List.enum_length, List.length_take, List.length_drop]
  omega

/-- C10 (witness): the length identity on the concrete two-sample buffer
[1, 2]. -/
theorem display_samples_length_witness :
    (get_display_samples ⟨[1, 2], 1, 1, 1⟩ ⟨true, .Rising, 0⟩).length
      = min (calculate_samples_per_screen ⟨[1, 2], 1, 1, 1⟩)
          (List.length [(1 : ℚ), 2]) :=
  display_samples_length ⟨[1, 2], 1, 1, 1⟩ ⟨true, .Rising, 0⟩
    (List.cons_ne_nil _ _)

/-! ## C6 and C9: measurement availability -/

lemma zip_tail_lt : ∀ {l : List ℕ}, l.Pairwise (· < ·) →
    ∀ p ∈ l.zip l.tail, p.1 < p.2 := by
  intro l
  induction l with
  | nil => intro _ p hp; simp at hp
  | cons a t ih =>
      intro hp p hpmem
      obtain ⟨ha, ht⟩ := List.pairwise_cons.mp hp
      cases t with
      | nil => simp at hpmem
      | cons b t2 =>
          rw [List.tail_cons, List.zip_cons_cons] at hpmem
          rcases List.mem_cons.mp hpmem with rfl | h2
          · exact ha b (List.mem_cons_self b t2)
          · exact ih ht p h2

lemma length_le_sum_of_one_le :
    ∀ l : List ℚ, (∀ x ∈ l, 1 ≤ x) → (l.length : ℚ) ≤ l.sum := by
  intro l
  induction l with
  | nil => simp
  | cons a t ih =>
      intro h
      have hta := ih fun x hx => h x (List.mem_cons_of_mem a hx)
      have ha := h a (List.mem_cons_self a t)
      simp only [List.length_cons, List.sum_cons]
      push_cast
      linarith

/-- The list of distances between consecutive rising zero-crossings (the
gaps stage of calculate_frequency). -/
def freqGaps (samples : List ℚ) : List ℕ :=
  ((risingCrossings samples).zip (risingCrossings samples).tail).map
    (fun p => p.2 - p.1)

/-- The average distance in samples between consecutive rising
zero-crossings: the total_period / count stage of calculate_frequency. -/
def avg_period_samples (samples : List ℚ) : ℚ :=
  ((freqGaps samples).map (fun g : ℕ => (g : ℚ))).sum / ((freqGaps samples).length : ℚ)

lemma risingCrossings_le (samples : List ℚ) :
    (risingCrossings samples).length ≤ samples.length - 1 := by
  rw [risingCrossings]
  calc (List.filter _ (List.range' 1 (samples.length - 1))).length
      ≤ (List.range' 1 (samples.length - 1)).length := List.length_filter_le _ _
  _ = samples.length - 1 := by simp

lemma risingCrossings_pairwise (samples : List ℚ) :
    (risingCrossings samples).Pairwise (· < ·) :=
  (List.pairwise_lt_range' 1 _).filter _

lemma calculate_frequency_eq (w : WaveformData) :
    calculate_frequency w =
      if w.samples.length < 3 then none
      else if (risingCrossings w.samples).length < 2 then none
      else if (freqGaps w.samples).length = 0 then none
      else if 0 < ((freqGaps w.samples).map (fun g : ℕ => (g : ℚ))).sum
            / ((freqGaps w.samples).length : ℚ) / (w.sample_rate : ℚ) then
        some (1 / (((freqGaps w.samples).map (fun g : ℕ => (g : ℚ))).sum
            / ((freqGaps w.samples).length : ℚ) / (w.sample_rate : ℚ)))
      else none := rfl

/-- C6: calculate_frequency returns no result exactly when there are fewer
than two rising zero-crossings, and otherwise returns the inverse of the
period obtained by dividing the average inter-crossing distance by the
sample rate. -/
theorem calculate_frequency_spec (w : WaveformData) (hsr : 0 < w.sample_rate) :
    (calculate_frequency w = none ↔ (risingCrossings w.samples).length < 2)
    ∧ (2 ≤ (risingCrossings w.samples).length →
        calculate_frequency w
          = some (1 / (avg_period_samples w.samples / (w.sample_rate : ℚ)))) := by
  have key : 2 ≤ (risingCrossings w.samples).length →
      calculate_frequency w
        = some (1 / (avg_period_samples w.samples / (w.sample_rate : ℚ))) := by
    intro h2
    have hle := risingCrossings_le w.samples
    have hlen3 : ¬ w.samples.length < 3 := by omega
    have hcs := risingCrossings_pairwise w.samples
    have hglen : (freqGaps w.samples).length = (risingCrossings w.samples).length - 1 := by
      rw [freqGaps, List.length_map, List.length_zip, List.length_tail]
      omega
    have hone : ∀ x ∈ (freqGaps w.samples).map (fun g : ℕ => (g : ℚ)), 1 ≤ x := by
      intro x hx
      rw [List.mem_map] at hx
      obtain ⟨g, hg, rfl⟩ := hx
      rw [freqGaps, List.mem_map] at hg
      obtain ⟨pr, hpr, rfl⟩ := hg
      have hlt := zip_tail_lt hcs pr hpr
      have h1 : 1 ≤ pr.2 - pr.1 := by omega
      exact_mod_cast h1
    have hsum : ((freqGaps w.samples).length : ℚ)
        ≤ ((freqGaps w.samples).map (fun g : ℕ => (g : ℚ))).sum := by
      have := length_le_sum_of_one_le ((freqGaps w.samples).map (fun g : ℕ => (g : ℚ))) hone
      rwa [List.length_map] at this
    have hcount : (0 : ℚ) < ((freqGaps w.samples).length : ℚ) := by
      have : 1 ≤ (freqGaps w.samples).length := by omega
      exact_mod_cast this
    have htotal : (0 : ℚ) < ((freqGaps w.samples).map (fun g : ℕ => (g : ℚ))).sum :=
      lt_of_lt_of_le hcount hsum
    have hsrq : (0 : ℚ) < (w.sample_rate : ℚ) := by exact_mod_cast hsr
    have hperiod : (0 : ℚ)
        < ((freqGaps w.samples).map (fun g : ℕ => (g : ℚ))).sum
            / ((freqGaps w.samples).length : ℚ) / (w.sample_rate : ℚ) :=
      div_pos (div_pos htotal hcount) hsrq
    rw [calculate_frequency_eq w, if_neg hlen3, if_neg (by omega), if_neg (by omega),
      if_pos hperiod, avg_period_samples]
  refine ⟨⟨?_, ?_⟩, key⟩
  · intro hnone
    by_contra hge
    rw [key (by omega)] at hnone
    exact Option.some_ne_none _ hnone
  · intro hlt
    rw [calculate_frequency]
    by_cases h3 : w.samples.length < 3
    · rw [if_pos h3]
    · rw [if_neg h3, if_pos hlt]

/-- C6 (witness): the characterization at the alternating buffer
[-1, 1, -1, 1] with sample rate 1, which has rising crossings at 1 and 3. -/
theorem calculate_frequency_spec_witness :
    (calculate_frequency ⟨[-1, 1, -1, 1], 1, 1, 1⟩ = none
        ↔ (risingCrossings [(-1 : ℚ), 1, -1, 1]).length < 2)
    ∧ (2 ≤ (risingCrossings [(-1 : ℚ), 1, -1, 1]).length →
        calculate_frequency ⟨[-1, 1, -1, 1], 1, 1, 1⟩
          = some (1 / (avg_period_samples [(-1 : ℚ), 1, -1, 1] / (((1 : ℕ) : ℚ))))) :=
  calculate_frequency_spec ⟨[-1, 1, -1, 1], 1, 1, 1⟩ (by norm_num)

/-- C9: calculate_duty_cycle returns no result exactly when there are fewer
than two zero-crossings (of either direction), and otherwise returns
100 times the fraction of samples strictly above zero. -/
theorem calculate_duty_cycle_spec (w : WaveformData) :
    (calculate_duty_cycle w = none ↔ (allCrossings w.samples).length < 2)
    ∧ (2 ≤ (allCrossings w.samples).length →
        calculate_duty_cycle w
          = some (((w.samples.filter (fun x => decide (0 < x))).length : ℚ)
              / (w.samples.length : ℚ) * 100)) := by
  have hle : (allCrossings w.samples).length ≤ w.samples.length - 1 := by
    rw [allCrossings]
    calc (List.filter _ (List.range' 1 (w.samples.length - 1))).length
        ≤ (List.range' 1 (w.samples.length - 1)).length := List.length_filter_le _ _
    _ = w.samples.length - 1 := by simp
  have key : 2 ≤ (allCrossings w.samples).length →
      calculate_duty_cycle w
        = some (((w.samples.filter (fun x => decide (0 < x))).length : ℚ)
            / (w.samples.length : ℚ) * 100) := by
    intro h2
    rw [calculate_duty_cycle, if_neg (by omega)]
    simp only
    rw [if_neg (by omega)]
  refine ⟨⟨?_, ?_⟩, key⟩
  · intro hnone
    by_contra hge
    rw [key (by omega)] at hnone
    exact Option.some_ne_none _ hnone
  · intro hlt
    rw [calculate_duty_cycle]
    by_cases h2 : w.samples.length < 2
    · rw [if_pos h2]
    · rw [if_neg h2, if_pos hlt]

/-! ## C2 and C8: spectrum pipeline -/

lemma compute_spectrum_expand (fftF : ℕ → List (ℚ × ℚ) → List (ℚ × ℚ))
    (hann : ℕ → ℕ → ℚ) (samples : List ℚ) (hs : samples ≠ []) :
    compute_spectrum fftF hann samples
      = ((fftF (fftSize samples)
          ((((samples.take (fftSize samples)).map (fun x => ((x, 0) : ℚ × ℚ)))
            ++ List.replicate (fftSize samples
                - ((samples.take (fftSize samples)).map
                    (fun x => ((x, 0) : ℚ × ℚ))).length)
              ((0, 0) : ℚ × ℚ)).enum.map
            (fun p => (p.2.1 * hann (fftSize samples) p.1,
              p.2.2 * hann (fftSize samples) p.1)))).take
          (fftSize samples / 2)).map
        (fun c => 20 * Real.logb 10
          (max (Real.sqrt ((c.1 : ℝ) ^ 2 + (c.2 : ℝ) ^ 2)
            / Real.sqrt ((fftSize samples : ℕ) : ℝ)) (1 / 100000))) := by
  rw [compute_spectrum, if_neg (by simp [hs])]

/-- C8: compute_spectrum returns an empty result on empty input and exactly
fftSize/2 values on non-empty input, where fftSize is the next power of two
of the sample count capped at 4096, for every length-preserving transform. -/
theorem compute_spectrum_length (fftF : ℕ → List (ℚ × ℚ) → List (ℚ × ℚ))
    (hann : ℕ → ℕ → ℚ)
    (hlen : ∀ n l, (fftF n l).length = l.length) :
    compute_spectrum fftF hann [] = []
    ∧ ∀ samples : List ℚ, samples ≠ [] →
        (compute_spectrum fftF hann samples).length = fftSize samples / 2 := by
  constructor
  · rfl
  · intro samples hs
    rw [compute_spectrum_expand fftF hann samples hs]
    simp only [List.length_map, List.length_take, hlen, List.enum_length,
      List.length_append, List.length_replicate]
    have h1 : min (fftSize samples) samples.length ≤ fftSize samples :=
      min_le_left _ _
    omega

/-- C8 (witness): the length identity for the identity transform on the
single-sample buffer [1]. -/
theorem compute_spectrum_length_witness :
    compute_spectrum (fun _ l => l) (fun _ _ => 1) [] = []
    ∧ ∀ samples : List ℚ, samples ≠ [] →
        (compute_spectrum (fun _ l => l) (fun _ _ => 1) samples).length
          = fftSize samples / 2 :=
  compute_spectrum_length (fun _ l => l) (fun _ _ => 1) (fun _ _ => rfl)

/-- C2 (code_bug evaluation): on the silent two-sample buffer [0, 0] the
spectrum holds the single value 20 * log10(1e-5) = -100 dB, strictly below
the -80 dB floor that the spec (and the comment above the clamp in the
code) states; the clamp constant 1e-5 yields a -100 dB floor, a -80 dB
floor would need 1e-4. -/
theorem spectrum_floor_minus100 (fftF : ℕ → List (ℚ × ℚ) → List (ℚ × ℚ))
    (hann : ℕ → ℕ → ℚ)
    (hfft : fftF 2 [((0 : ℚ), (0 : ℚ)), (0, 0)] = [(0, 0), (0, 0)]) :
    compute_spectrum fftF hann [0, 0] = [20 * Real.logb 10 (1 / 100000)]
    ∧ 20 * Real.logb 10 (1 / 100000) = (-100 : ℝ)
    ∧ (-100 : ℝ) < -80 := by
  have h5 : ((1 : ℝ) / 100000) = (10 : ℝ) ^ (-5 : ℤ) := by norm_num
  have hlog10 : Real.log 10 ≠ 0 := ne_of_gt (Real.log_pos (by norm_num))
  have hlogb : Real.logb 10 (1 / 100000) = -5 := by
    rw [h5, Real.logb, Real.log_zpow]
    field_simp
  refine ⟨?_, by rw [hlogb]; norm_num, by norm_num⟩
  have step1 : compute_spectrum fftF hann [0, 0]
      = ((fftF 2 [((0 : ℚ) * hann 2 0, (0 : ℚ) * hann 2 0),
          ((0 : ℚ) * hann 2 1, (0 : ℚ) * hann 2 1)]).take 1).map
        (fun c => 20 * Real.logb 10
          (max (Real.sqrt ((c.1 : ℝ) ^ 2 + (c.2 : ℝ) ^ 2)
            / Real.sqrt (((2 : ℕ)) : ℝ)) (1 / 100000))) := rfl
  have hbuf2 : [((0 : ℚ) * hann 2 0, (0 : ℚ) * hann 2 0),
      ((0 : ℚ) * hann 2 1, (0 : ℚ) * hann 2 1)] = [((0 : ℚ), (0 : ℚ)), (0, 0)] := by
    simp
  rw [step1, hbuf2, hfft]
  have hz : Real.sqrt ((((0 : ℚ) : ℝ)) ^ 2 + (((0 : ℚ) : ℝ)) ^ 2)
      / Real.sqrt (((2 : ℕ)) : ℝ) = 0 := by
    norm_num
  show [20 * Real.logb 10
      (max (Real.sqrt ((((0 : ℚ) : ℝ)) ^ 2 + (((0 : ℚ) : ℝ)) ^ 2)
        / Real.sqrt (((2 : ℕ)) : ℝ)) (1 / 100000))]
    = [20 * Real.logb 10 (1 / 100000)]
  rw [hz, max_eq_right (by norm_num : (0 : ℝ) ≤ 1 / 100000)]

/-- C2 (witness): the evaluation for the identity transform, which fixes
the all-zero buffer as the true transform of size 2 does. -/
theorem spectrum_floor_minus100_witness :
    compute_spectrum (fun _ l => l) (fun _ _ => 1) [0, 0]
        = [20 * Real.logb 10 (1 / 100000)]
    ∧ 20 * Real.logb 10 (1 / 100000) = (-100 : ℝ)
    ∧ (-100 : ℝ) < -80 :=
  spectrum_floor_minus100 (fun _ l => l) (fun _ _ => 1) rfl

end Ozee
